import Mathlib

/-!
Verification of the shell formatting/buffer core of `pyzo/core/shell.py`
(`BaseShell.write`, `ShellWriter.writeText`, `ShellWriter._shortenLines`,
`ShellWriter.parseFormat`), via a shallow embedding.

Text is modelled as `List Char`, the Qt document as a flat `List Char` with
`'\n'` as block separator, cursor positions as character offsets, and Python
exceptions (`AssertionError`, `TypeError`, `UnicodeDecodeError`) as
`Except.error` values.
-/

namespace PyzoShell

/-- Decidable equality for `Except`, used to settle concrete runs of the
model by evaluation. -/
instance exceptDecidableEq {ε α : Type} [DecidableEq ε] [DecidableEq α] :
    DecidableEq (Except ε α) := fun x y =>
  match x, y with
  | .error a, .error b =>
    if h : a = b then .isTrue (congrArg Except.error h)
    else .isFalse (fun hh => h (Except.error.inj hh))
  | .ok a, .ok b =>
    if h : a = b then .isTrue (congrArg Except.ok h)
    else .isFalse (fun hh => h (Except.ok.inj hh))
  | .error _, .ok _ => .isFalse (fun hh => Except.noConfusion hh)
  | .ok _, .error _ => .isFalse (fun hh => Except.noConfusion hh)

/-- Font weight, mirroring the uses of `QtGui.QFont.Weight` in the source. -/
inductive Weight where
  | normal
  | bold
  | light
deriving DecidableEq, Repr

/-- Model of the slice of `QtGui.QTextCharFormat` the shell writer uses:
font weight, italic, underline and foreground color (a hex string, `none`
meaning the format carries no explicit foreground). -/
structure TextFormat where
  weight : Weight := .normal
  italic : Bool := false
  underline : Bool := false
  foreground : Option (List Char) := none
deriving DecidableEq, Repr

/-- The solarised palette `ShellWriter.COLORS`. -/
def COLORS : List (List Char) :=
  ["#657b83".toList, "#dc322f".toList, "#859900".toList, "#b58900".toList,
   "#268bd2".toList, "#d33682".toList, "#2aa198".toList, "#eee8d5".toList]

/-- One SGR parameter application, mirroring the `for param in params` body of
`ShellWriter.parseFormat`. -/
def applyParam (defaultFormat : TextFormat) (format : TextFormat) (param : Nat) : TextFormat :=
  if param = 0 then defaultFormat
  else if param = 1 then { format with weight := .bold }
  else if param = 2 then { format with weight := .light }
  else if param = 3 then { format with italic := true }
  else if param = 4 then { format with underline := true }
  else if param = 22 then { format with weight := .normal }
  else if param = 23 then { format with italic := false }
  else if param = 24 then { format with underline := false }
  else if 30 ≤ param ∧ param ≤ 37 then
    { format with foreground := some (COLORS.getD (param - 30) []) }
  else if param = 39 then { format with foreground := defaultFormat.foreground }
  else format

def isDigitChar (c : Char) : Bool := '0' ≤ c ∧ c ≤ '9'

def digitsToNat (ds : List Char) : Nat :=
  ds.foldl (fun acc c => acc * 10 + (c.toNat - '0'.toNat)) 0

/-- Consume the longest digit prefix. -/
def takeDigits : List Char → List Char × List Char
  | [] => ([], [])
  | c :: cs =>
    if isDigitChar c then
      let (ds, rest) := takeDigits cs
      (c :: ds, rest)
    else ([], c :: cs)

/-- After `ESC [ digits`: repeatedly accept `; digits`, demanding a final `m`.
Returns the parameter list and the number of characters consumed (including
the final `m`).  `fuel` bounds the recursion; `s.length` always suffices. -/
def matchSGRGroups (fuel : Nat) (s : List Char) (accParams : List Nat) (consumed : Nat) :
    Option (List Nat × Nat) :=
  match fuel with
  | 0 => none
  | fuel + 1 =>
    match s with
    | 'm' :: _ => some (accParams.reverse, consumed + 1)
    | ';' :: rest =>
      let (ds, rest2) := takeDigits rest
      if ds = [] then none
      else matchSGRGroups fuel rest2 (digitsToNat ds :: accParams) (consumed + 1 + ds.length)
    | _ => none

/-- Anchored match of the source regex `\x1b\[(\d+(?:;\d+)*)m` at the start of
`s`; on success returns the parameter list (group 2, split on `;` and converted
with `int`) and the length of the whole match (group 1). -/
def matchSGR (s : List Char) : Option (List Nat × Nat) :=
  match s with
  | '\x1b' :: '[' :: rest =>
    let (ds, rest2) := takeDigits rest
    if ds = [] then none
    else
      match matchSGRGroups (rest2.length + 1) rest2 [digitsToNat ds] (2 + ds.length) with
      | some (params, len) => some (params, len)
      | none => none
  | _ => none

/-- `ShellWriter.parseFormat`: process an ANSI SGR escape sequence.  Returns
`(format, matchLen)`, both `none` when the pattern does not match. -/
def parseFormat (text : List Char) (currentFormat defaultFormat : TextFormat) :
    Option TextFormat × Option Nat :=
  match matchSGR text with
  | none => (none, none)
  | some (params, matchLen) =>
    (some (params.foldl (applyParam defaultFormat) currentFormat), some matchLen)

/-! ## The stream tokenizer: `ShellWriter._reSplit` -/

/-- The line-break characters `ShellWriter._linebreaks`. -/
def linebreakChars : List Char := ['\n', ' ', ' ', '﷐', '﷑']

def isLinebreakChar (c : Char) : Bool := linebreakChars.contains c

/-- Delimiters that always form single-character tokens in `_reSplit`
(the character class `[\n  ﷐﷑\t\x1b]`). -/
def isSingleDelim (c : Char) : Bool := isLinebreakChar c || c = '\t' || c = '\x1b'

/-- Token category: 1 = single-char delimiter, 2 = `\v`-run, 3 = `\r`-run,
4 = `\b`-run, 0 = ordinary text. -/
def charCat (c : Char) : Nat :=
  if isSingleDelim c then 1
  else if c = '\x0b' then 2
  else if c = '\r' then 3
  else if c = '\x08' then 4
  else 0

/-- Worker for `splitShell`: `cur` is the reversed current token (all of one
groupable category). -/
def splitShellAux : List Char → List Char → List (List Char)
  | [], cur => if cur.isEmpty then [] else [cur.reverse]
  | c :: cs, cur =>
    match cur.head? with
    | none =>
      if charCat c = 1 then [c] :: splitShellAux cs []
      else splitShellAux cs [c]
    | some d =>
      if charCat c = charCat d ∧ charCat c ≠ 1 then splitShellAux cs (c :: cur)
      else
        cur.reverse ::
          (if charCat c = 1 then [c] :: splitShellAux cs [] else splitShellAux cs [c])

/-- `[s for s in self._reSplit.split(text2) if s != ""]`: split on the
delimiter classes, keeping delimiters as their own tokens, with `\v`, `\r`
and `\b` runs kept together and empty fragments dropped. -/
def splitShell (s : List Char) : List (List Char) := splitShellAux s []

/-! ## Line/segment data produced by the tokenizer -/

/-- A segment of a pending line: a literal text run or a zero-width style
change (Python: `str` or `QTextCharFormat` elements of `ll`). -/
inductive FLElem where
  | str (s : List Char)
  | fmt (f : TextFormat)
deriving DecidableEq, Repr

/-- An entry of `finishedLines`.  A well-formed entry is a Python list
`[*elems, endPos]`; the vertical-tab branch `finishedLines.extend(["\n",
leftLimit + 1] * (n - 1))` also pushes bare strings and bare ints. -/
inductive FLEntry where
  | line (elems : List FLElem) (endPos : Int)
  | rawStr (s : List Char)
  | rawInt (n : Int)
deriving DecidableEq, Repr

def FLElem.lengthOf : FLElem → Nat
  | .str s => s.length
  | .fmt _ => 0

/-! ## The Qt document/cursor model -/

/-- Insert `s` at offset `q` (Qt `QTextCursor.insertText` document effect). -/
def insertAt (doc : List Char) (q : Nat) (s : List Char) : List Char :=
  doc.take q ++ s ++ doc.drop q

/-- Delete the range `[a, b)` (Qt `removeSelectedText` document effect). -/
def deleteRange (doc : List Char) (a b : Nat) : List Char :=
  doc.take a ++ doc.drop b

/-- Adjustment of a cursor at `p` when `n` characters are inserted at `q`:
a cursor always moves when text is inserted before it, and a cursor exactly at
the insertion point moves unless `keepPositionOnInsert` is set. -/
def adjIns (q n p : Nat) (keep : Bool) : Nat :=
  if q < p then p + n
  else if q = p ∧ keep = false then p + n
  else p

/-- Adjustment of a cursor at `p` when the range `[a, b)` is deleted: cursors
past the range shift left, cursors inside it collapse to its start. -/
def adjDel (a b p : Nat) : Nat :=
  if b ≤ p then p - (b - a)
  else if a ≤ p then a
  else p

/-- The document together with the working (writing) cursor and the other
live cursors (each with its `keepPositionOnInsert` flag) that Qt adjusts on
every edit. -/
structure WriteCtx where
  doc : List Char
  wpos : Nat
  others : List (Nat × Bool)
deriving DecidableEq, Repr

/-- Offset within its block of position `pos` in document `doc`: the length
of the run of non-newline characters just before the position. -/
def pibAt (doc : List Char) (pos : Nat) : Nat :=
  ((doc.take pos).reverse.takeWhile (fun c => c ≠ '\n')).length

/-- `cursor.positionInBlock()`. -/
def WriteCtx.positionInBlock (ctx : WriteCtx) : Nat :=
  pibAt ctx.doc ctx.wpos

/-- `cursor.insertText(s)`: insert at the working cursor, which ends up after
the inserted text; all other cursors adjust. -/
def ctxInsert (ctx : WriteCtx) (s : List Char) : WriteCtx :=
  { doc := insertAt ctx.doc ctx.wpos s
    wpos := ctx.wpos + s.length
    others := ctx.others.map (fun pk => (adjIns ctx.wpos s.length pk.1 pk.2, pk.2)) }

/-- `movePosition(Left, KeepAnchor, n)` followed by `removeSelectedText`:
delete the `n` characters before the working cursor (clamped at the document
start, as Qt clamps partial moves). -/
def ctxDeleteBefore (ctx : WriteCtx) (n : Nat) : WriteCtx :=
  let a := ctx.wpos - n
  { doc := deleteRange ctx.doc a ctx.wpos
    wpos := a
    others := ctx.others.map (fun pk => (adjDel a ctx.wpos pk.1, pk.2)) }

/-- `movePosition(Left, MoveAnchor, n)`: move the working cursor only. -/
def ctxMoveLeft (ctx : WriteCtx) (n : Nat) : WriteCtx :=
  { ctx with wpos := ctx.wpos - n }

/-- `movePosition(Right, MoveAnchor, n)`: move the working cursor only,
clamped at the end of the document. -/
def ctxMoveRight (ctx : WriteCtx) (n : Nat) : WriteCtx :=
  { ctx with wpos := min (ctx.wpos + n) ctx.doc.length }

/-! ## Writer state and the token loop of `ShellWriter.writeText` -/

/-- Per-stream incremental state (`ShellWriter.__init__`). -/
structure ShellWriterState where
  currentFormat : Option TextFormat
  unfinishedTail : List Char
  lineShorteningActive : Bool
deriving DecidableEq, Repr

/-- A fresh `ShellWriter()`. -/
def ShellWriterState.new : ShellWriterState :=
  { currentFormat := none, unfinishedTail := [], lineShorteningActive := false }

/-- State threaded through the `for i, s in enumerate(splitText)` loop. -/
structure TokSt where
  ll : List FLElem
  posInBlock : Int
  leftLimit : Int
  lowest : Int
  finished : List FLEntry
  tailNew : List Char
  currentFormat : TextFormat
deriving DecidableEq, Repr

/-- The backward walk of the backspace branch, on the reversed `ll`: trim up
to `n` characters from the ends of the accumulated text segments, stopping as
soon as the budget hits zero.  Returns the remaining budget and the trimmed
(still reversed) list. -/
def trimBackRev : Nat → List FLElem → Nat × List FLElem
  | n, [] => (n, [])
  | n, .fmt f :: rest =>
    let r := trimBackRev n rest
    (r.1, .fmt f :: r.2)
  | n, .str v :: rest =>
    let nb := min n v.length
    let v2 := v.take (v.length - nb)
    let n2 := n - nb
    if n2 = 0 then (0, .str v2 :: rest)
    else
      let r := trimBackRev n2 rest
      (r.1, .str v2 :: r.2)

/-- The backspace branch: trim up to `n` characters from the current line,
decrease the column per trimmed character, then clamp the column at the
stream's left limit (`posInBlock = max(leftLimit, posInBlock - n)`). -/
def applyBackspace (n : Nat) (ll : List FLElem) (posInBlock leftLimit : Int) :
    List FLElem × Int :=
  let r := trimBackRev n ll.reverse
  let trimmed := n - r.1
  (r.2.reverse, max leftLimit (posInBlock - (trimmed : Int) - (r.1 : Int)))

/-- The token loop body of `ShellWriter.writeText`.  `fuel` bounds recursion;
`tokens.length` always suffices because every step consumes one list cell
(the escape branch may rewrite the head of the remainder in place, as the
Python code mutates `splitText[i + 1]`). -/
def procTokens (defaultFormat : TextFormat) : Nat → List (List Char) → TokSt → TokSt
  | 0, _, st => st
  | _ + 1, [], st => st
  | fuel + 1, s :: rest, st =>
    match s.head? with
    | none => procTokens defaultFormat fuel rest st
    | some c =>
      if isLinebreakChar c then
        let pos2 := st.posInBlock + 1
        procTokens defaultFormat fuel rest
          { st with ll := [], posInBlock := 0, leftLimit := 0,
                    finished := st.finished ++ [.line (st.ll ++ [.str ['\n']]) pos2] }
      else if c = '\t' then
        let numSpaces := (8 - st.posInBlock.emod 8).toNat
        procTokens defaultFormat fuel rest
          { st with ll := st.ll ++ [.str (List.replicate numSpaces ' ')],
                    posInBlock := st.posInBlock + (numSpaces : Int) }
      else if c = '\x0b' then
        let n := s.length
        let line1 := FLEntry.line (st.ll ++ [.str ['\n']]) (st.posInBlock + 1)
        let extras := (List.replicate (n - 1) [FLEntry.rawStr ['\n'], FLEntry.rawInt 1]).flatten
        procTokens defaultFormat fuel rest
          { st with ll := [.str (List.replicate st.posInBlock.toNat ' ')],
                    leftLimit := 0,
                    finished := st.finished ++ [line1] ++ extras }
      else if c = '\r' then
        match rest with
        | [] => { st with tailNew := ['\r'] }
        | next :: _ =>
          if next = ['\n'] then procTokens defaultFormat fuel rest st
          else
            procTokens defaultFormat fuel rest
              { st with ll := [], posInBlock := st.leftLimit,
                        lowest := if st.finished.isEmpty then st.leftLimit else st.lowest }
      else if c = '\x08' then
        let r := applyBackspace s.length st.ll st.posInBlock st.leftLimit
        procTokens defaultFormat fuel rest
          { st with ll := r.1, posInBlock := r.2,
                    lowest :=
                      if st.finished.isEmpty ∧ r.2 < st.lowest then r.2 else st.lowest }
      else if c = '\x1b' then
        match rest with
        | [] =>
          { st with tailNew := s, ll := st.ll ++ [.str s],
                    posInBlock := st.posInBlock + (s.length : Int) }
        | next :: rest2 =>
          let textAndNext := s ++ next
          match parseFormat textAndNext st.currentFormat defaultFormat with
          | (some format, some matchLen) =>
            procTokens defaultFormat fuel (next.drop (matchLen - 1) :: rest2)
              { st with ll := st.ll ++ [.fmt format], currentFormat := format }
          | _ =>
            let tail2 :=
              if rest2 = [] ∧
                  ((matchSGR (textAndNext ++ ['m'])).isSome ∨
                   (matchSGR (textAndNext ++ ['0', 'm'])).isSome ∨
                   (matchSGR (textAndNext ++ ['[', '0', 'm'])).isSome) then
                textAndNext
              else st.tailNew
            procTokens defaultFormat fuel rest
              { st with tailNew := tail2, ll := st.ll ++ [.str s],
                        posInBlock := st.posInBlock + (s.length : Int) }
      else
        procTokens defaultFormat fuel rest
          { st with ll := st.ll ++ [.str s],
                    posInBlock := st.posInBlock + (s.length : Int) }

/-! ## `ShellWriter._shortenLines` -/

/-- `ShellWriter._splitStringIntoChunks`. -/
def splitStringIntoChunks (s : List Char) (offset chunkSize : Nat) :
    List Char × List (List Char) × List Char :=
  let n := s.length
  let numChunks := (n - offset) / chunkSize
  let tillOffset := s.take offset
  let chunkList :=
    (List.range numChunks).map (fun i => (s.drop (offset + i * chunkSize)).take chunkSize)
  let remnant := s.drop (offset + numChunks * chunkSize)
  (tillOffset, chunkList, remnant)

/-- Rewrite the elements of one line when shortening is active: emit a piece
and start a fresh row whenever a text segment would push the column past 80.
Arguments: remaining elements, accumulated `lineNew`, current column. -/
def shortenOne : List FLElem → List FLElem → Nat → List FLEntry
  | [], lineNew, pos => [.line lineNew (pos : Int)]
  | .fmt f :: rest, lineNew, pos => shortenOne rest (lineNew ++ [.fmt f]) pos
  | .str s :: rest, lineNew, pos =>
    if pos + s.length > 80 then
      let r := splitStringIntoChunks s (80 - pos) 80
      FLEntry.line (lineNew ++ [.str r.1, .str ['\n']]) ((pos : Int) + (r.1.length : Int) + 1) ::
        (r.2.1.map (fun ch => FLEntry.line [.str ch, .str ['\n']] 81) ++
          shortenOne rest [.str r.2.2] r.2.2.length)
    else shortenOne rest (lineNew ++ [.str s]) (pos + s.length)

/-- One round of the retroactive split of the already-on-screen first row:
move right 80 characters and insert a newline, `m` times. -/
def retroStep : Nat → WriteCtx → WriteCtx
  | 0, ctx => ctx
  | k + 1, ctx => retroStep k (ctxInsert (ctxMoveRight ctx 80) ['\n'])

/-- The `indLine == 0 and posInBlock > 80` branch of `_shortenLines`: walk to
the block start, insert a newline every 80 characters, and end up `rem`
characters past the last break. -/
def retroSplit (ctx : WriteCtx) (pib : Nat) : WriteCtx × Nat :=
  let m := pib / 80
  let rem := pib % 80
  (ctxMoveRight (retroStep m (ctxMoveLeft ctx pib)) rem, rem)

/-- The loop of `_shortenLines`.  A bare string or bare int entry (produced by
the vertical-tab branch for runs of length at least 2) makes the Python code
raise a `TypeError` — either at `line[-1]` for an int, or at the comparison
`lastPosInBlock > 1024` for a string. -/
def shortenGo (defaultFuel : Unit) : List FLEntry → Bool → Nat → Bool → WriteCtx →
    Except String (List FLEntry × WriteCtx × Bool)
  | [], _, _, active, ctx => .ok ([], ctx, active)
  | .rawInt _ :: _, _, _, _, _ =>
    .error "TypeError: 'int' object is not subscriptable"
  | .rawStr _ :: _, _, _, _, _ =>
    .error "TypeError: '>' not supported between instances of 'str' and 'int'"
  | .line elems endPos :: rest, isFirst, pib, active, ctx =>
    let active1 :=
      if endPos > 1024 then true
      else if endPos ≤ 81 ∧ rest ≠ [] then false
      else active
    if active1 then
      let rp := if isFirst then (if pib > 80 then retroSplit ctx pib else (ctx, pib))
                else (ctx, 0)
      let outLines := shortenOne elems [] rp.2
      match shortenGo defaultFuel rest false pib active1 rp.1 with
      | .error e => .error e
      | .ok (outRest, ctx3, active2) => .ok (outLines ++ outRest, ctx3, active2)
    else
      match shortenGo defaultFuel rest false pib active1 ctx with
      | .error e => .error e
      | .ok (outRest, ctx2, active2) => .ok (.line elems endPos :: outRest, ctx2, active2)

/-- `ShellWriter._shortenLines`. -/
def shortenLines (entries : List FLEntry) (ctx : WriteCtx) (active : Bool) :
    Except String (List FLEntry × WriteCtx × Bool) :=
  shortenGo () entries true ctx.positionInBlock active ctx

/-- The final write-out loop of `writeText`: insert the text of every line at
the working cursor (style markers change the running format only, not the
document text, which this model does not track per character). -/
def insertLines (entries : List FLEntry) (ctx : WriteCtx) : WriteCtx :=
  entries.foldl
    (fun c e =>
      match e with
      | .line elems _ =>
        elems.foldl
          (fun c2 el =>
            match el with
            | .str s => ctxInsert c2 s
            | .fmt _ => c2) c
      | .rawStr _ => c
      | .rawInt _ => c) ctx

/-! ## `ShellWriter.writeText` -/

/-- The tail end of `writeText`: run `_shortenLines`, write the lines out, and
assemble the updated writer state (raising whatever `_shortenLines` raised). -/
def writeTextFinish (finished : List FLEntry) (ctx1 : WriteCtx) (act : Bool)
    (cf : TextFormat) (tailNew : List Char) (leftLimit : Int) :
    Except String (ShellWriterState × WriteCtx × Int) :=
  match shortenLines finished ctx1 act with
  | .error e => .error e
  | .ok (finished2, ctx2, active2) =>
    .ok ({ currentFormat := some cf, unfinishedTail := tailNew,
           lineShorteningActive := active2 }, insertLines finished2 ctx2, leftLimit)

/-- `ShellWriter.writeText(cursor, leftLimitFirstRow, text, defaultFormat)`.
Returns the updated writer state, the updated document/cursors, and the
returned `newLeftLimit`.  A failed `assert cursor.positionInBlock() >=
leftLimitFirstRow` or a `TypeError` inside `_shortenLines` surfaces as
`Except.error`. -/
def writeText (w : ShellWriterState) (ctx : WriteCtx) (leftLimitFirstRow : Option Int)
    (text : List Char) (defaultFormat : TextFormat) :
    Except String (ShellWriterState × WriteCtx × Int) :=
  let pib0 : Int := (ctx.positionInBlock : Int)
  let llfr : Int := leftLimitFirstRow.getD pib0
  let active0 : Bool := if leftLimitFirstRow.isNone then false else w.lineShorteningActive
  if pib0 < llfr then .error "AssertionError"
  else
    let tailIsEsc := w.unfinishedTail.head? = some '\x1b'
    let posStart : Int := if tailIsEsc then max 0 (pib0 - (w.unfinishedTail.length : Int)) else pib0
    let text2 := if tailIsEsc then w.unfinishedTail ++ text else text
    let currentFormat0 := w.currentFormat.getD defaultFormat
    let splitText0 := splitShell text2
    let splitText :=
      if w.unfinishedTail = ['\r'] ∧ splitText0.head? ≠ some ['\n'] then ['\r'] :: splitText0
      else splitText0
    let st0 : TokSt :=
      { ll := [], posInBlock := posStart, leftLimit := llfr, lowest := posStart,
        finished := [], tailNew := [], currentFormat := currentFormat0 }
    let st := procTokens defaultFormat splitText.length splitText st0
    let finished := st.finished ++ [.line st.ll st.posInBlock]
    let numCharsToRemove : Int := pib0 - st.lowest
    let ctx1 := if numCharsToRemove > 0 then ctxDeleteBefore ctx numCharsToRemove.toNat else ctx
    writeTextFinish finished ctx1 active0 st.currentFormat st.tailNew st.leftLimit

/-! ## `BaseShell.write` -/

/-- Strict UTF-8 decoding of a byte, following CPython's `bytes.decode("utf-8")`
(default `errors="strict"`): overlong encodings, surrogates, out-of-range
code points and stray continuation bytes are rejected. -/
def isContByte (b : Nat) : Bool := 0x80 ≤ b ∧ b ≤ 0xBF

def utf8DecodeAux : Nat → List Nat → Option (List Char)
  | _, [] => some []
  | 0, _ :: _ => none
  | fuel + 1, b :: bs =>
    if b ≤ 0x7F then (utf8DecodeAux fuel bs).map (fun cs => Char.ofNat b :: cs)
    else if 0xC2 ≤ b ∧ b ≤ 0xDF then
      match bs with
      | b1 :: bs1 =>
        if isContByte b1 then
          (utf8DecodeAux fuel bs1).map
            (fun cs => Char.ofNat ((b - 0xC0) * 64 + (b1 - 0x80)) :: cs)
        else none
      | [] => none
    else if 0xE0 ≤ b ∧ b ≤ 0xEF then
      match bs with
      | b1 :: b2 :: bs2 =>
        let lo1 := if b = 0xE0 then 0xA0 else 0x80
        let hi1 := if b = 0xED then 0x9F else 0xBF
        if lo1 ≤ b1 ∧ b1 ≤ hi1 ∧ isContByte b2 then
          (utf8DecodeAux fuel bs2).map
            (fun cs => Char.ofNat ((b - 0xE0) * 4096 + (b1 - 0x80) * 64 + (b2 - 0x80)) :: cs)
        else none
      | _ => none
    else if 0xF0 ≤ b ∧ b ≤ 0xF4 then
      match bs with
      | b1 :: b2 :: b3 :: bs3 =>
        let lo1 := if b = 0xF0 then 0x90 else 0x80
        let hi1 := if b = 0xF4 then 0x8F else 0xBF
        if lo1 ≤ b1 ∧ b1 ≤ hi1 ∧ isContByte b2 ∧ isContByte b3 then
          (utf8DecodeAux fuel bs3).map
            (fun cs =>
              Char.ofNat
                ((b - 0xF0) * 262144 + (b1 - 0x80) * 4096 + (b2 - 0x80) * 64 + (b3 - 0x80)) :: cs)
        else none
      | _ => none
    else none

/-- Strict UTF-8 decoding of a byte string; `none` models `UnicodeDecodeError`. -/
def utf8Decode (bs : List Nat) : Option (List Char) := utf8DecodeAux bs.length bs

/-- The `text` argument of `BaseShell.write`: either a `str` or a `bytes`. -/
inductive WriteInput where
  | txt (s : List Char)
  | bin (bs : List Nat)
deriving DecidableEq, Repr

/-- The whole `BaseShell` state relevant to `write`: the document, the three
live cursors (`_cursor1` = prompt start / before-prompt insertion point,
`_cursor2` = prompt end, `_lastCommandCursor`), the per-stream writers map
and `_cursor1_lastStreamStart`. -/
structure ShellState where
  doc : List Char
  pos1 : Nat
  pos2 : Nat
  lastCmd : Nat
  writers : List (Nat × ShellWriterState)
  lastStreamStart : Option (Nat × Int)
deriving DecidableEq, Repr

/-- A freshly initialised shell (empty document, all cursors at 0, no
writers, no last stream start). -/
def ShellState.fresh : ShellState :=
  { doc := [], pos1 := 0, pos2 := 0, lastCmd := 0, writers := [], lastStreamStart := none }

def lookupWriter : List (Nat × ShellWriterState) → Nat → Option ShellWriterState
  | [], _ => none
  | kw :: rest, sid => if kw.1 = sid then some kw.2 else lookupWriter rest sid

def setWriter : List (Nat × ShellWriterState) → Nat → ShellWriterState →
    List (Nat × ShellWriterState)
  | [], sid, w => [(sid, w)]
  | kw :: rest, sid, w =>
    if kw.1 = sid then (kw.1, w) :: rest else kw :: setWriter rest sid w

/-- State reassembly after the `prompt == 0` branch of `write`: the working
cursor is `_cursor1`, the tracked cursors are `_cursor2` and
`_lastCommandCursor`, the stream's writer is stored back, and the new left
limit is recorded in `_cursor1_lastStreamStart`. -/
def writePrompt0Finish (st : ShellState) (streamIdentifier : Nat)
    (r : ShellWriterState × WriteCtx × Int) : ShellState :=
  ⟨r.2.1.doc, r.2.1.wpos, (r.2.1.others.getD 0 (0, false)).1,
    (r.2.1.others.getD 1 (0, true)).1, setWriter st.writers streamIdentifier r.1,
    some (streamIdentifier, r.2.2)⟩

/-- State reassembly after the `prompt == 1` branch of `write`: the working
cursor is `_cursor2`, and `_cursor1` is then moved onto `_cursor2`
(`self._cursor1.setPosition(self._cursor2.position())`); the throwaway
`ShellWriter()` is dropped and `_cursor1_lastStreamStart` is cleared. -/
def writePrompt1Finish (st : ShellState) (r : ShellWriterState × WriteCtx × Int) :
    ShellState :=
  ⟨r.2.1.doc, r.2.1.wpos, r.2.1.wpos, (r.2.1.others.getD 1 (0, true)).1, st.writers, none⟩

/-- State reassembly after the ordinary `prompt == 2` branch of `write`. -/
def writePrompt2Finish (st : ShellState) (r : ShellWriterState × WriteCtx × Int) :
    ShellState :=
  ⟨r.2.1.doc, (r.2.1.others.getD 0 (0, true)).1, (r.2.1.others.getD 1 (0, false)).1,
    (r.2.1.others.getD 2 (0, true)).1, st.writers, st.lastStreamStart⟩

/-- `BaseShell.write(text, prompt, color, streamIdentifier)`. -/
def write (st : ShellState) (input : WriteInput) (prompt : Nat)
    (color : Option (List Char)) (streamIdentifier : Nat) : Except String ShellState :=
  let empty := match input with
    | .txt s => s.isEmpty
    | .bin bs => bs.isEmpty
  if empty then .ok st
  else
    let textE : Except String (List Char) :=
      match input with
      | .txt s => .ok s
      | .bin bs =>
        match utf8Decode bs with
        | some s => .ok s
        | none => .error "UnicodeDecodeError"
    match textE with
    | .error e => .error e
    | .ok text =>
      let format : TextFormat := { foreground := color }
      if prompt = 0 then
        let leftLimit : Option Int :=
          match st.lastStreamStart with
          | some sl => if sl.1 = streamIdentifier then some sl.2 else none
          | none => none
        let w := (lookupWriter st.writers streamIdentifier).getD ShellWriterState.new
        let ctx : WriteCtx := ⟨st.doc, st.pos1, [(st.pos2, false), (st.lastCmd, true)]⟩
        (writeText w ctx leftLimit text format).map (writePrompt0Finish st streamIdentifier)
      else if prompt = 1 then
        let lastCmd1 := st.pos2
        let ctx : WriteCtx := ⟨st.doc, st.pos2, [(st.pos1, false), (lastCmd1, true)]⟩
        (writeText ShellWriterState.new ctx none text format).map (writePrompt1Finish st)
      else if prompt = 2 ∧ text = ['\x08'] then
        let a := min st.pos1 st.pos2
        let b := max st.pos1 st.pos2
        .ok { doc := deleteRange st.doc a b
              pos1 := a
              pos2 := a
              lastCmd := adjDel a b st.lastCmd
              writers := st.writers
              lastStreamStart := st.lastStreamStart }
      else if prompt = 2 then
        let a := min st.pos1 st.pos2
        let b := max st.pos1 st.pos2
        let doc1 := deleteRange st.doc a b
        let lastCmd1 := adjDel a b st.lastCmd
        let ctx : WriteCtx := ⟨doc1, a, [(a, true), (a, false), (lastCmd1, true)]⟩
        (writeText ShellWriterState.new ctx none text format).map (writePrompt2Finish st)
      else .ok st

/-! ## Derived notions used by the claims -/

/-- Document text of a `write` result, `none` on an exception. -/
def docOf (r : Except String ShellState) : Option (List Char) :=
  match r with
  | .ok st => some st.doc
  | .error _ => none

/-- A character that is not a delimiter of the tokenizer: ordinary printable
text (no line breaks, tab, vertical tab, CR, backspace or escape). -/
def PlainText (s : List Char) : Prop := ∀ c ∈ s, charCat c = 0

instance plainTextDecidable (s : List Char) : Decidable (PlainText s) := by
  unfold PlainText
  infer_instance

/-- Concrete before-prompt row of 79 `a`s with the cursor at its end. -/
def rowOf79 : WriteCtx := ⟨List.replicate 79 'a', 79, []⟩

/-- A writer whose line-shortening hysteresis is currently latched on. -/
def activeWriter : ShellWriterState := ⟨some {}, [], true⟩

/-- Total length of the text segments of a pending line. -/
def elemsLen (l : List FLElem) : Nat := (l.map FLElem.lengthOf).sum

/-- The hysteresis transition of `_shortenLines`, as the spec states it: an
end column above 1024 enables shortening; an end column of at most 81 on a
line that is not the last of the batch disables it; anything else leaves the
flag unchanged. -/
def hystStep (active : Bool) (endPos : Int) (isLast : Bool) : Bool :=
  if endPos > 1024 then true
  else if endPos ≤ 81 ∧ isLast = false then false
  else active

/-- Run the hysteresis transition over the end columns of a batch (the last
column belongs to the still-open final line). -/
def hystRun (active : Bool) : List Int → Bool
  | [] => active
  | [p] => hystStep active p true
  | p :: q :: rest => hystRun (hystStep active p false) (q :: rest)

/-- End columns of a batch of well-formed entries; `none` if a bare entry
(from the vertical-tab bug) is present. -/
def entryEndCols : List FLEntry → Option (List Int)
  | [] => some []
  | .line _ p :: rest => (entryEndCols rest).map (fun l => p :: l)
  | _ => none

/-- Feed fragments one at a time to the same stream's writer, threading the
writer state and the recorded left limit exactly as consecutive same-stream
`write(..., prompt=0)` calls do. -/
def writeFragments (w : ShellWriterState) (ctx : WriteCtx) (l : Int) (fmt : TextFormat) :
    List (List Char) → Except String (ShellWriterState × WriteCtx × Int)
  | [] => .ok (w, ctx, l)
  | f :: rest =>
    match writeText w ctx (some l) f fmt with
    | .ok r => writeFragments r.1 r.2.1 r.2.2 fmt rest
    | .error e => .error e

/-! ## Claims -/

/-- Claim C9: interpreting the SGR reset sequence `ESC[0m` yields exactly the
default style regardless of the current style (so applying the reset twice
equals applying it once), and the whole four-character sequence is consumed. -/
theorem claim9_sgr_reset_idempotent :
    ∀ currentFormat defaultFormat : TextFormat,
      parseFormat ('\x1b' :: '[' :: '0' :: 'm' :: []) currentFormat defaultFormat =
        (some defaultFormat, some 4) ∧
      parseFormat ('\x1b' :: '[' :: '0' :: 'm' :: []) defaultFormat defaultFormat =
        (some defaultFormat, some 4) := by
  intro currentFormat defaultFormat
  exact ⟨rfl, rfl⟩

/-- Claim C1 (code bug): a run of two vertical tabs makes `writeText` push a
bare string and a bare int into `finishedLines`, and `_shortenLines` then
raises `TypeError` at the comparison `lastPosInBlock > 1024`; the exception
propagates out of `BaseShell.write`, contradicting the claim that no
exception from the formatting core reaches the caller. -/
theorem claim1_no_exception_code_bug :
    write ShellState.fresh (.txt ('x' :: '\x0b' :: '\x0b' :: 'y' :: [])) 0 none 0 =
      .error "TypeError: '>' not supported between instances of 'str' and 'int'" := by
  decide

/-- Claim C5 (code bug): a single vertical tab does move straight down keeping
the column (`"ab\vcd"` gives `"ab"`, newline, two padding spaces, `"cd"`), but
a run of two vertical tabs raises a `TypeError` inside `_shortenLines` instead
of producing two line breaks, because `finishedLines.extend(["\n", leftLimit +
1] * (n - 1))` extends with a flat list of bare strings and ints. -/
theorem claim5_vertical_tab_code_bug :
    docOf (write ShellState.fresh (.txt ('a' :: 'b' :: '\x0b' :: 'c' :: 'd' :: [])) 0 none 0) =
      some ('a' :: 'b' :: '\n' :: ' ' :: ' ' :: 'c' :: 'd' :: []) ∧
    write ShellState.fresh (.txt ('a' :: 'b' :: '\x0b' :: '\x0b' :: 'c' :: 'd' :: []))
        0 none 0 =
      .error "TypeError: '>' not supported between instances of 'str' and 'int'" := by
  constructor
  · decide
  · decide

/-- Claim C3: a trailing CR is deferred to the next same-stream fragment:
`"abc"` then `"\rdeX"` leaves the single row `"deX"`, while `"abc\r"` then
`"\ndef"` leaves the rows `"abc"` and `"def"` (the split CR-LF is a no-op). -/
theorem claim3_carriage_return_rows :
    docOf (write ShellState.fresh (.txt "abc".toList) 0 none 0 >>= fun st =>
        write st (.txt ('\r' :: 'd' :: 'e' :: 'X' :: [])) 0 none 0) =
      some "deX".toList ∧
    docOf (write ShellState.fresh (.txt ('a' :: 'b' :: 'c' :: '\r' :: [])) 0 none 0 >>=
        fun st => write st (.txt ('\n' :: 'd' :: 'e' :: 'f' :: [])) 0 none 0) =
      some ('a' :: 'b' :: 'c' :: '\n' :: 'd' :: 'e' :: 'f' :: []) := by
  constructor
  · decide
  · decide

/-- Claim C6 (counterexample): a bytes payload with an invalid UTF-8 byte is
not decoded with replacement — `text.decode("utf-8")` uses strict error
handling, so `write` raises `UnicodeDecodeError` instead of replacing the
byte. -/
theorem claim6_decode_counterexample :
    write ShellState.fresh (.bin [0xFF]) 0 none 0 = .error "UnicodeDecodeError" := by
  decide

/-- Claim C2 (counterexample): the round-trip property fails.  Starting from
the same writer state (line shortening latched on) and the same row of 79
characters, feeding `"\x1b[31m"` in one call changes only the style, but
feeding `"\x1b[3"` then `"1m"` leaves a stray escape character and an extra
line break in the document: the provisionally emitted tail was split across a
shortened line boundary, so the removal of provisional characters falls
short. -/
theorem claim2_roundtrip_counterexample :
    (match writeText activeWriter rowOf79 (some 0) ('\x1b' :: '[' :: '3' :: []) {} with
      | .ok r => writeText r.1 r.2.1 (some r.2.2) ('1' :: 'm' :: []) {}
      | .error e => .error e) ≠
      writeText activeWriter rowOf79 (some 0) ('\x1b' :: '[' :: '3' :: '1' :: 'm' :: []) {} := by
  decide

/-- Claim C10: when `writeText` is called with `leftLimitFirstRow = None` (a
before-prompt write whose preceding before-prompt write came from a different
stream, or none at all), the line-shortening hysteresis flag is reset before
the fragment is processed — the result does not depend on the stored flag at
all — and this is observable: with the flag latched on, the same one-character
write on a 100-column row is split at column 80 when a left limit is supplied,
but is written unsplit when the limit is `None`. -/
theorem claim10_none_resets_shortening :
    (∀ (w : ShellWriterState) (ctx : WriteCtx) (text : List Char) (fmt : TextFormat),
        writeText { w with lineShorteningActive := true } ctx none text fmt =
          writeText { w with lineShorteningActive := false } ctx none text fmt) ∧
    writeText activeWriter ⟨List.replicate 100 'a', 100, []⟩ none ['b'] {} =
      .ok (⟨some {}, [], false⟩, ⟨List.replicate 100 'a' ++ ['b'], 101, []⟩, 100) ∧
    (∀ r, writeText activeWriter ⟨List.replicate 100 'a', 100, []⟩ (some 0) ['b'] {} =
        .ok r → r.1.lineShorteningActive = true ∧ r.2.1.doc ≠ List.replicate 100 'a' ++ ['b']) := by
  refine ⟨fun w ctx text fmt => rfl, by decide, ?_⟩
  intro r hr
  have : writeText activeWriter ⟨List.replicate 100 'a', 100, []⟩ (some 0) ['b'] {} =
      .ok (⟨some {}, [], true⟩,
        ⟨(List.replicate 80 'a' ++ ['\n']) ++ (List.replicate 20 'a' ++ ['b']), 102, []⟩, 0) := by
    decide
  rw [this] at hr
  cases hr
  exact ⟨rfl, by decide⟩

/-! ### Backspace lemmas (claim C4) -/

theorem trimBackRev_fst_le (l : List FLElem) : ∀ n, (trimBackRev n l).1 ≤ n := by
  induction l with
  | nil => intro n; simp [trimBackRev]
  | cons e rest ih =>
    intro n
    cases e with
    | fmt f => simpa [trimBackRev] using ih n
    | str v =>
      simp only [trimBackRev]
      split
      · simp
      · exact le_trans (ih (n - min n v.length)) (Nat.sub_le _ _)

theorem elemsLen_trimBackRev (l : List FLElem) :
    ∀ n, elemsLen (trimBackRev n l).2 + (n - (trimBackRev n l).1) = elemsLen l := by
  induction l with
  | nil => intro n; simp [trimBackRev, elemsLen]
  | cons e rest ih =>
    intro n
    cases e with
    | fmt f =>
      simp only [trimBackRev, elemsLen, List.map_cons, List.sum_cons, FLElem.lengthOf]
      have := ih n
      simp only [elemsLen] at this
      omega
    | str v =>
      simp only [trimBackRev]
      split
      · rename_i h
        have hmin : min n v.length = n := by omega
        simp only [elemsLen, List.map_cons, List.sum_cons, FLElem.lengthOf, List.length_take]
        have hnv : n ≤ v.length := by omega
        omega
      · rename_i h
        have hmin : min n v.length = v.length := by omega
        have := ih (n - min n v.length)
        have hle := trimBackRev_fst_le rest (n - min n v.length)
        simp only [elemsLen, List.map_cons, List.sum_cons, FLElem.lengthOf,
          List.length_take] at this ⊢
        omega

theorem elemsLen_reverse (l : List FLElem) : elemsLen l.reverse = elemsLen l := by
  simp [elemsLen, List.map_reverse, List.sum_reverse]

/-- The new column after a backspace run of length `n` is exactly the old
column minus `n`, clamped at the stream's left limit. -/
theorem applyBackspace_column (n : Nat) (ll : List FLElem) (pos lim : Int) :
    (applyBackspace n ll pos lim).2 = max lim (pos - n) := by
  simp only [applyBackspace]
  have hle := trimBackRev_fst_le ll.reverse n
  have hcast : ((n - (trimBackRev n ll.reverse).1 : Nat) : Int) =
      (n : Int) - ((trimBackRev n ll.reverse).1 : Int) := by
    omega
  rw [hcast]
  ring_nf

/-- A backspace run of length `n` removes at most `n` characters from the
current line's accumulated text segments. -/
theorem applyBackspace_trim_le (n : Nat) (ll : List FLElem) (pos lim : Int) :
    elemsLen ll ≤ elemsLen (applyBackspace n ll pos lim).1 + n := by
  simp only [applyBackspace]
  rw [elemsLen_reverse]
  have h := elemsLen_trimBackRev ll.reverse n
  rw [elemsLen_reverse] at h
  omega

/-- Claim C4: a backspace run trims only same-stream content on the current
line.  Concretely, `"abc"` then `"\b\bXY"` from the same stream yields
`"aXY"`, while the same second fragment from a different stream yields
`"abcXY"` (the left limit is then the current column, so `"abc"` survives);
in general a run of `n` backspaces moves the column to `max leftLimit
(column - n)` — never past the stream's left limit — and removes at most `n`
characters from the line. -/
theorem claim4_backspace_limits :
    docOf (write ShellState.fresh (.txt "abc".toList) 0 none 0 >>= fun st =>
        write st (.txt ('\x08' :: '\x08' :: 'X' :: 'Y' :: [])) 0 none 0) =
      some "aXY".toList ∧
    docOf (write ShellState.fresh (.txt "abc".toList) 0 none 0 >>= fun st =>
        write st (.txt ('\x08' :: '\x08' :: 'X' :: 'Y' :: [])) 0 none 1) =
      some "abcXY".toList ∧
    (∀ (n : Nat) (ll : List FLElem) (pos lim : Int),
        (applyBackspace n ll pos lim).2 = max lim (pos - n)) ∧
    (∀ (n : Nat) (ll : List FLElem) (pos lim : Int),
        elemsLen ll ≤ elemsLen (applyBackspace n ll pos lim).1 + n) := by
  exact ⟨by decide, by decide, applyBackspace_column, applyBackspace_trim_le⟩

/-- Claim C6 (amended): `write` with empty text (or an empty bytes payload)
returns immediately with the whole shell state unchanged; a bytes payload is
decoded as strict UTF-8 before any processing, and an invalid byte sequence
raises a decoding error (it is not replaced), while a valid byte sequence is
processed exactly like the decoded string. -/
theorem claim6_empty_and_decode_amended :
    (∀ (st : ShellState) (prompt : Nat) (color : Option (List Char)) (sid : Nat),
        write st (.txt []) prompt color sid = .ok st) ∧
    (∀ (st : ShellState) (prompt : Nat) (color : Option (List Char)) (sid : Nat),
        write st (.bin []) prompt color sid = .ok st) ∧
    (∀ (st : ShellState) (prompt : Nat) (color : Option (List Char)) (sid : Nat)
        (bs : List Nat), utf8Decode bs = none →
        write st (.bin bs) prompt color sid = .error "UnicodeDecodeError") ∧
    (∀ (st : ShellState) (prompt : Nat) (color : Option (List Char)) (sid : Nat)
        (bs : List Nat) (s : List Char), utf8Decode bs = some s → s ≠ [] →
        write st (.bin bs) prompt color sid = write st (.txt s) prompt color sid) := by
  refine ⟨fun st prompt color sid => rfl, fun st prompt color sid => rfl, ?_, ?_⟩
  · intro st prompt color sid bs hdec
    obtain ⟨b, bs', rfl⟩ : ∃ b bs', bs = b :: bs' := by
      cases bs with
      | nil => simp [utf8Decode, utf8DecodeAux] at hdec
      | cons b bs' => exact ⟨b, bs', rfl⟩
    simp [write, hdec]
  · intro st prompt color sid bs s hdec hs
    obtain ⟨b, bs', rfl⟩ : ∃ b bs', bs = b :: bs' := by
      cases bs with
      | nil =>
        simp [utf8Decode, utf8DecodeAux] at hdec
        exact absurd hdec hs
      | cons b bs' => exact ⟨b, bs', rfl⟩
    obtain ⟨c, s', rfl⟩ : ∃ c s', s = c :: s' := by
      cases s with
      | nil => exact absurd rfl hs
      | cons c s' => exact ⟨c, s', rfl⟩
    simp [write, hdec]

/-- Witness for claim C6: the two-byte UTF-8 encoding of `é` is processed like
the one-character string, and the lone byte `0xFE` raises. -/
theorem claim6_empty_and_decode_amended_witness :
    write ShellState.fresh (.bin [0xC3, 0xA9]) 0 none 0 =
      write ShellState.fresh (.txt ['é']) 0 none 0 ∧
    write ShellState.fresh (.bin [0xFE]) 0 none 0 = .error "UnicodeDecodeError" := by
  constructor
  · exact claim6_empty_and_decode_amended.2.2.2 ShellState.fresh 0 none 0 [0xC3, 0xA9] ['é']
      (by decide) (by decide)
  · exact claim6_empty_and_decode_amended.2.2.1 ShellState.fresh 0 none 0 [0xFE] (by decide)

/-! ### Hysteresis and shortening lemmas (claim C7) -/

theorem entryEndCols_nil_of_some_nil {entries : List FLEntry}
    (h : entryEndCols entries = some []) : entries = [] := by
  cases entries with
  | nil => rfl
  | cons e rest =>
    cases e with
    | line elems p =>
      simp only [entryEndCols] at h
      cases hr : entryEndCols rest with
      | none => rw [hr] at h; simp at h
      | some l => rw [hr] at h; simp at h
    | rawStr s => simp [entryEndCols] at h
    | rawInt n => simp [entryEndCols] at h

theorem entryEndCols_ne_nil {entries : List FLEntry} {q : Int} {ends : List Int}
    (h : entryEndCols entries = some (q :: ends)) : entries ≠ [] := by
  intro he
  subst he
  simp [entryEndCols] at h

/-- The hysteresis flag produced by the `_shortenLines` loop is exactly the
fold of the spec's transition over the end columns of the batch, the final
column marked as belonging to the still-open last line; it does not depend on
the cursor, the line contents, or the rewriting itself. -/
theorem shortenGo_flag (entries : List FLEntry) :
    ∀ (ends : List Int) (isFirst : Bool) (pib : Nat) (a : Bool) (ctx : WriteCtx)
      (res : List FLEntry × WriteCtx × Bool),
      entryEndCols entries = some ends →
      shortenGo () entries isFirst pib a ctx = .ok res →
      res.2.2 = hystRun a ends := by
  induction entries with
  | nil =>
    intro ends isFirst pib a ctx res hends hgo
    simp only [entryEndCols, Option.some.injEq] at hends
    subst hends
    simp only [shortenGo, Except.ok.injEq] at hgo
    subst hgo
    rfl
  | cons e rest ih =>
    intro ends isFirst pib a ctx res hends hgo
    cases e with
    | rawStr s => simp [entryEndCols] at hends
    | rawInt n => simp [entryEndCols] at hends
    | line elems p =>
      simp only [entryEndCols] at hends
      cases hr : entryEndCols rest with
      | none => rw [hr] at hends; simp at hends
      | some ends' =>
        rw [hr] at hends
        simp only [Option.map_some', Option.some.injEq] at hends
        subst hends
        simp only [shortenGo] at hgo
        set active1 := if p > 1024 then true
          else if p ≤ 81 ∧ rest ≠ [] then false else a with hactive1
        have hstep : hystRun a (p :: ends') = hystRun active1 ends' := by
          cases ends' with
          | nil =>
            have hrest : rest = [] := entryEndCols_nil_of_some_nil hr
            subst hrest
            simp only [hystRun, hystStep, hactive1]
            by_cases h1 : p > 1024
            · simp [h1]
            · simp [h1]
          | cons q ends'' =>
            have hrest : rest ≠ [] := entryEndCols_ne_nil hr
            simp only [hystRun, hystStep, hactive1]
            congr 1
            by_cases h1 : p > 1024
            · simp [h1]
            · by_cases h2 : p ≤ 81
              · simp [h1, h2, hrest]
              · simp [h1, h2]
        rw [hstep]
        by_cases hb : active1 = true
        · rw [if_pos hb] at hgo
          cases hrec : shortenGo () rest false pib active1
              (if isFirst then (if pib > 80 then retroSplit ctx pib else (ctx, pib))
               else (ctx, 0)).1 with
          | error e => rw [hrec] at hgo; exact absurd hgo (by simp)
          | ok r2 =>
            rw [hrec] at hgo
            obtain ⟨o2, c2, a2⟩ := r2
            simp only [Except.ok.injEq] at hgo
            subst hgo
            have := ih ends' false pib active1 _ (o2, c2, a2) hr hrec
            rw [hb]
            rw [hb] at this
            exact this
        · rw [if_neg hb] at hgo
          cases hrec : shortenGo () rest false pib active1 ctx with
          | error e => rw [hrec] at hgo; exact absurd hgo (by simp)
          | ok r2 =>
            rw [hrec] at hgo
            obtain ⟨o2, c2, a2⟩ := r2
            simp only [Except.ok.injEq] at hgo
            subst hgo
            exact ih ends' false pib active1 ctx (o2, c2, a2) hr hrec

/-- Length of the remnant produced by `splitStringIntoChunks` at offset
`80 - pos` with chunk size 80: strictly below 80. -/
theorem splitStringIntoChunks_remnant_length (s : List Char) (off : Nat) :
    (splitStringIntoChunks s off 80).2.2.length = (s.length - off) % 80 := by
  simp only [splitStringIntoChunks, List.length_drop]
  have := Nat.div_add_mod (s.length - off) 80
  omega

/-- While shortening is active, the rewriting of one line produces only rows
of exactly 80 content columns closed by a newline (end column 81), followed
by one final still-open row of at most 80 columns. -/
theorem shortenOne_bound (elems : List FLElem) :
    ∀ (lineNew : List FLElem) (pos : Nat), pos ≤ 80 →
      (∀ e ∈ (shortenOne elems lineNew pos).dropLast, ∃ els, e = FLEntry.line els 81) ∧
      (∃ (els : List FLElem) (p : Nat), (shortenOne elems lineNew pos).getLast? =
          some (FLEntry.line els (p : Int)) ∧ p ≤ 80) := by
  induction elems with
  | nil =>
    intro lineNew pos hpos
    refine ⟨by simp [shortenOne], lineNew, pos, by simp [shortenOne], hpos⟩
  | cons e rest ih =>
    intro lineNew pos hpos
    cases e with
    | fmt f => exact ih (lineNew ++ [.fmt f]) pos hpos
    | str s =>
      simp only [shortenOne]
      by_cases hover : pos + s.length > 80
      · rw [if_pos hover]
        have hremlen : (splitStringIntoChunks s (80 - pos) 80).2.2.length ≤ 80 := by
          rw [splitStringIntoChunks_remnant_length]
          have := Nat.mod_lt (s.length - (80 - pos)) (show 0 < 80 by norm_num)
          omega
        obtain ⟨hrecdrop, els, pfin, hlast, hple⟩ :=
          ih [.str (splitStringIntoChunks s (80 - pos) 80).2.2]
            (splitStringIntoChunks s (80 - pos) 80).2.2.length hremlen
        have hrecne : shortenOne rest [.str (splitStringIntoChunks s (80 - pos) 80).2.2]
            (splitStringIntoChunks s (80 - pos) 80).2.2.length ≠ [] := by
          intro hnil
          rw [hnil] at hlast
          simp at hlast
        have htill : ((splitStringIntoChunks s (80 - pos) 80).1).length = 80 - pos := by
          simp only [splitStringIntoChunks, List.length_take]
          omega
        have hendp : (pos : Int) + (((splitStringIntoChunks s (80 - pos) 80).1).length : Int)
            + 1 = 81 := by
          rw [htill]
          omega
        have happne : ((splitStringIntoChunks s (80 - pos) 80).2.1.map
              (fun ch => FLEntry.line [.str ch, .str ['\n']] 81)) ++
            shortenOne rest [.str (splitStringIntoChunks s (80 - pos) 80).2.2]
              (splitStringIntoChunks s (80 - pos) 80).2.2.length ≠ [] := by
          intro hnil
          exact hrecne (List.append_eq_nil.mp hnil).2
        constructor
        · intro entry hentry
          rw [List.dropLast_cons_of_ne_nil happne] at hentry
          rcases List.mem_cons.mp hentry with hfirst | hbody
          · refine ⟨lineNew ++ [.str (splitStringIntoChunks s (80 - pos) 80).1,
              .str ['\n']], ?_⟩
            rw [hfirst]
            exact congrArg _ hendp
          · rw [List.dropLast_append_of_ne_nil _ hrecne] at hbody
            rcases List.mem_append.mp hbody with hchunk | hrec
            · obtain ⟨ch, _, hch⟩ := List.mem_map.mp hchunk
              exact ⟨_, hch.symm⟩
            · exact hrecdrop _ hrec
        · refine ⟨els, pfin, ?_, hple⟩
          have hcons : FLEntry.line (lineNew ++ [.str (splitStringIntoChunks s (80 - pos) 80).1,
                .str ['\n']]) ((pos : Int) + (((splitStringIntoChunks s (80 - pos) 80).1).length : Int) + 1) ::
              (((splitStringIntoChunks s (80 - pos) 80).2.1.map
                  (fun ch => FLEntry.line [.str ch, .str ['\n']] 81)) ++
                shortenOne rest [.str (splitStringIntoChunks s (80 - pos) 80).2.2]
                  (splitStringIntoChunks s (80 - pos) 80).2.2.length) =
              [FLEntry.line (lineNew ++ [.str (splitStringIntoChunks s (80 - pos) 80).1,
                .str ['\n']]) ((pos : Int) + (((splitStringIntoChunks s (80 - pos) 80).1).length : Int) + 1)] ++
              (((splitStringIntoChunks s (80 - pos) 80).2.1.map
                  (fun ch => FLEntry.line [.str ch, .str ['\n']] 81)) ++
                shortenOne rest [.str (splitStringIntoChunks s (80 - pos) 80).2.2]
                  (splitStringIntoChunks s (80 - pos) 80).2.2.length) := rfl
          rw [hcons, List.getLast?_append_of_ne_nil _ happne,
            List.getLast?_append_of_ne_nil _ hrecne]
          exact hlast
      · rw [if_neg hover]
        exact ih (lineNew ++ [.str s]) (pos + s.length) (by omega)

/-- Claim C7: line shortening obeys hysteresis.  The flag after a batch is the
fold of the transition "end column above 1024 enables; end column at most 81
on a non-final (newline-closed) line disables; otherwise unchanged" over the
batch's end columns; while the flag is active every line is rewritten into
leading pieces of exactly 80 columns (each closed by a newline, end column 81)
plus a still-open remainder of at most 80 columns; and the flag persists in
the writer across same-stream `writeText` calls: a short still-open line
leaves it enabled, and only a newline-closed short line disables it. -/
theorem claim7_shortening_hysteresis :
    (∀ (entries : List FLEntry) (ends : List Int) (isFirst : Bool) (pib : Nat)
        (a : Bool) (ctx : WriteCtx) (res : List FLEntry × WriteCtx × Bool),
        entryEndCols entries = some ends →
        shortenGo () entries isFirst pib a ctx = .ok res →
        res.2.2 = hystRun a ends) ∧
    (∀ (elems : List FLElem) (lineNew : List FLElem) (pos : Nat), pos ≤ 80 →
        (∀ e ∈ (shortenOne elems lineNew pos).dropLast, ∃ els, e = FLEntry.line els 81) ∧
        (∃ (els : List FLElem) (p : Nat), (shortenOne elems lineNew pos).getLast? =
            some (FLEntry.line els (p : Int)) ∧ p ≤ 80)) ∧
    (∀ res, shortenLines [.line [.str (List.replicate 90 'x')] 1200] ⟨[], 0, []⟩ false =
        .ok res → res.2.2 = true) ∧
    (∀ res, writeText activeWriter ⟨['q'], 1, []⟩ (some 0) ['a', 'b'] {} = .ok res →
        res.1.lineShorteningActive = true) ∧
    (∀ res, writeText activeWriter ⟨['q'], 1, []⟩ (some 0) ['a', 'b', '\n', 'c'] {} =
        .ok res → res.1.lineShorteningActive = false) := by
  refine ⟨shortenGo_flag, shortenOne_bound, ?_, ?_, ?_⟩
  · intro res h
    have : shortenLines [.line [.str (List.replicate 90 'x')] 1200] ⟨[], 0, []⟩ false =
        .ok ([.line [.str (List.replicate 80 'x'), .str ['\n']] 81,
              .line [.str (List.replicate 10 'x')] 10], ⟨[], 0, []⟩, true) := by decide
    rw [this] at h
    cases h
    rfl
  · intro res h
    have hw : writeText activeWriter ⟨['q'], 1, []⟩ (some 0) ['a', 'b'] {} =
        .ok (⟨some {}, [], true⟩, ⟨['q', 'a', 'b'], 3, []⟩, 0) := by decide
    rw [hw] at h
    cases h
    rfl
  · intro res h
    have hw : writeText activeWriter ⟨['q'], 1, []⟩ (some 0) ['a', 'b', '\n', 'c'] {} =
        .ok (⟨some {}, [], false⟩, ⟨['q', 'a', 'b', '\n', 'c'], 5, []⟩, 0) := by decide
    rw [hw] at h
    cases h
    rfl

/-- Witness for claim C7: the fold characterization and the 80-column bound at
concrete inputs. -/
theorem claim7_shortening_hysteresis_witness :
    (∀ res, shortenGo () [.line [] 2000, .line [] 0] true 0 false ⟨[], 0, []⟩ = .ok res →
        res.2.2 = hystRun false [2000, 0]) ∧
    (∀ e ∈ (shortenOne [.str (List.replicate 200 'y')] [] 0).dropLast,
        ∃ els, e = FLEntry.line els 81) := by
  constructor
  · intro res h
    exact claim7_shortening_hysteresis.1 [.line [] 2000, .line [] 0] [2000, 0] true 0 false
      ⟨[], 0, []⟩ res (by decide) h
  · exact (claim7_shortening_hysteresis.2.1 [.str (List.replicate 200 'y')] [] 0
      (by norm_num)).1

/-! ### Plain-text writes (infrastructure for claims C2 and C8) -/

theorem takeWhile_append_of_all {α : Type} (p : α → Bool) (l1 l2 : List α)
    (h : ∀ a ∈ l1, p a) : (l1 ++ l2).takeWhile p = l1 ++ l2.takeWhile p := by
  induction l1 with
  | nil => simp
  | cons a l ih =>
    simp only [List.cons_append, List.takeWhile_cons, h a (by simp)]
    rw [ih (fun b hb => h b (by simp [hb]))]
    simp

theorem charCat_zero_props {c : Char} (h : charCat c = 0) :
    isLinebreakChar c = false ∧ c ≠ '\t' ∧ c ≠ '\x0b' ∧ c ≠ '\r' ∧ c ≠ '\x08' ∧
      c ≠ '\x1b' := by
  simp only [charCat] at h
  split_ifs at h with h1 h2 h3 h4
  refine ⟨?_, ?_, h2, h3, h4, ?_⟩
  · cases hv : isLinebreakChar c
    · rfl
    · exact absurd (by simp [isSingleDelim, hv]) h1
  · intro hc
    exact h1 (by simp [isSingleDelim, hc])
  · intro hc
    exact h1 (by simp [isSingleDelim, hc])

theorem charCat_zero_ne_newline {c : Char} (h : charCat c = 0) : c ≠ '\n' := by
  intro hc
  subst hc
  have := (charCat_zero_props h).1
  simp [isLinebreakChar, linebreakChars] at this

theorem splitShellAux_plain (s : List Char) :
    ∀ (cur : List Char), (∀ c ∈ s, charCat c = 0) → (∀ c ∈ cur, charCat c = 0) →
      cur ≠ [] → splitShellAux s cur = [cur.reverse ++ s] := by
  induction s with
  | nil =>
    intro cur _ _ hne
    simp only [splitShellAux, List.isEmpty_eq_true]
    rw [if_neg hne]
    simp
  | cons c cs ih =>
    intro cur hs hcur hne
    obtain ⟨d, cur', rfl⟩ : ∃ d cur', cur = d :: cur' := by
      cases cur with
      | nil => exact absurd rfl hne
      | cons d cur' => exact ⟨d, cur', rfl⟩
    have hc : charCat c = 0 := hs c (by simp)
    have hd : charCat d = 0 := hcur d (by simp)
    simp only [splitShellAux, List.head?_cons]
    rw [if_pos (by rw [hc, hd]; exact ⟨rfl, by norm_num⟩)]
    rw [ih (c :: d :: cur') (fun x hx => hs x (by simp [hx]))
      (fun x hx => by
        rcases List.mem_cons.mp hx with h1 | h2
        · rw [h1]; exact hc
        · exact hcur x h2)
      (by simp)]
    simp

theorem splitShell_plain (s : List Char) (hplain : PlainText s) (hne : s ≠ []) :
    splitShell s = [s] := by
  obtain ⟨c, cs, rfl⟩ : ∃ c cs, s = c :: cs := by
    cases s with
    | nil => exact absurd rfl hne
    | cons c cs => exact ⟨c, cs, rfl⟩
  have hc : charCat c = 0 := hplain c (by simp)
  simp only [splitShell, splitShellAux, List.head?_nil]
  rw [if_neg (by rw [hc]; norm_num)]
  cases cs with
  | nil => simp [splitShellAux]
  | cons c2 cs2 =>
    rw [splitShellAux_plain (c2 :: cs2) [c] (fun x hx => hplain x (by simp [hx]))
      (fun x hx => by rw [List.mem_singleton.mp hx]; exact hc) (by simp)]
    simp

/-- Processing a single plain literal token appends it to the pending line and
advances the column by its length. -/
theorem procTokens_plain_single (fmt : TextFormat) (s : List Char) (st : TokSt)
    (hplain : PlainText s) (hne : s ≠ []) :
    procTokens fmt 1 [s] st =
      { st with ll := st.ll ++ [.str s], posInBlock := st.posInBlock + (s.length : Int) } := by
  obtain ⟨c, cs, rfl⟩ : ∃ c cs, s = c :: cs := by
    cases s with
    | nil => exact absurd rfl hne
    | cons c cs => exact ⟨c, cs, rfl⟩
  have hc := charCat_zero_props (hplain c (by simp))
  simp only [procTokens, List.head?_cons]
  rw [if_neg (by simp [hc.1]), if_neg (by simp [hc.2.1]), if_neg (by simp [hc.2.2.1]),
    if_neg (by simp [hc.2.2.2.1]), if_neg (by simp [hc.2.2.2.2.1]),
    if_neg (by simp [hc.2.2.2.2.2])]

theorem take_len_append {α : Type} (l1 l2 : List α) (i n : Nat) (h : l1.length = n) :
    (l1 ++ l2).take (n + i) = l1 ++ l2.take i := by
  subst h
  exact List.take_append i

theorem drop_len_append {α : Type} (l1 l2 : List α) (i n : Nat) (h : l1.length = n) :
    (l1 ++ l2).drop (n + i) = l2.drop i := by
  subst h
  exact List.drop_append i

theorem take_insertAt_self (doc : List Char) (q : Nat) (s : List Char)
    (h : q ≤ doc.length) : (insertAt doc q s).take (q + s.length) = doc.take q ++ s := by
  unfold insertAt
  rw [List.append_assoc, take_len_append (doc.take q) _ s.length q (by simp [h])]
  have : (s ++ doc.drop q).take s.length = s := List.take_left s _
  rw [this]

theorem drop_insertAt_self (doc : List Char) (q : Nat) (s : List Char)
    (h : q ≤ doc.length) : (insertAt doc q s).drop (q + s.length) = doc.drop q := by
  unfold insertAt
  rw [List.append_assoc, drop_len_append (doc.take q) _ s.length q (by simp [h])]
  exact List.drop_left s _

theorem positionInBlock_ctxInsert (ctx : WriteCtx) (s : List Char)
    (hwf : ctx.wpos ≤ ctx.doc.length) (hnl : ∀ c ∈ s, c ≠ '\n') :
    (ctxInsert ctx s).positionInBlock = ctx.positionInBlock + s.length := by
  simp only [ctxInsert, WriteCtx.positionInBlock, pibAt]
  rw [take_insertAt_self ctx.doc ctx.wpos s hwf, List.reverse_append]
  rw [takeWhile_append_of_all _ s.reverse _
    (fun a ha => by
      have := hnl a (List.mem_reverse.mp ha)
      simp [this])]
  simp [Nat.add_comm]

theorem ctxInsert_wf (ctx : WriteCtx) (s : List Char) (hwf : ctx.wpos ≤ ctx.doc.length) :
    (ctxInsert ctx s).wpos ≤ (ctxInsert ctx s).doc.length := by
  simp only [ctxInsert, insertAt, List.length_append, List.length_take, List.length_drop]
  omega

theorem adjIns_adjIns (q n m p : Nat) (k : Bool) :
    adjIns (q + n) m (adjIns q n p k) k = adjIns q (n + m) p k := by
  unfold adjIns
  by_cases h1 : q < p
  · rw [if_pos h1, if_pos (by omega : q + n < p + n), if_pos h1]
    omega
  · rw [if_neg h1]
    by_cases h2 : q = p ∧ k = false
    · rw [if_pos h2, if_neg (by omega : ¬ q + n < p + n),
        if_pos ⟨by omega, h2.2⟩, if_neg h1, if_pos h2]
      omega
    · rw [if_neg h2, if_neg (by omega : ¬ q + n < p),
        if_neg (fun hc => h2 ⟨by omega, hc.2⟩), if_neg h1, if_neg h2]

/-- Two consecutive insertions at the write head equal one insertion of the
concatenation. -/
theorem ctxInsert_ctxInsert (ctx : WriteCtx) (s t : List Char)
    (hwf : ctx.wpos ≤ ctx.doc.length) :
    ctxInsert (ctxInsert ctx s) t = ctxInsert ctx (s ++ t) := by
  simp only [ctxInsert, WriteCtx.mk.injEq]
  refine ⟨?_, ?_, ?_⟩
  · show insertAt (insertAt ctx.doc ctx.wpos s) (ctx.wpos + s.length) t = _
    conv_lhs =>
      rw [insertAt, take_insertAt_self ctx.doc ctx.wpos s hwf,
        drop_insertAt_self ctx.doc ctx.wpos s hwf]
    rw [insertAt]
    simp [List.append_assoc]
  · simp [Nat.add_assoc]
  · rw [List.map_map]
    apply List.map_congr_left
    intro pk _
    simp only [Function.comp_apply]
    rw [List.length_append, adjIns_adjIns]

theorem shortenGo_single_line_inactive (elems : List FLElem) (endPos : Int)
    (isFirst : Bool) (pib : Nat) (ctx : WriteCtx) (hend : ¬ endPos > 1024) :
    shortenGo () [.line elems endPos] isFirst pib false ctx =
      .ok ([.line elems endPos], ctx, false) := by
  simp only [shortenGo]
  rw [if_neg hend]
  simp [shortenGo]

theorem insertLines_single_str (s : List Char) (p : Int) (ctx : WriteCtx) :
    insertLines [.line [.str s] p] ctx = ctxInsert ctx s := by
  simp [insertLines]

/-- Effect of `writeText` on a plain printable fragment when the writer
carries no tail and line shortening is off (a `None` left limit switches it
off anyway): the fragment is simply appended at the write head, the writer
still carries no tail, shortening stays off, and the call returns the given
left limit (or the entry column for `None`). -/
theorem writeText_plain (w : ShellWriterState) (ctx : WriteCtx) (llOpt : Option Int)
    (text : List Char) (fmt : TextFormat)
    (hplain : PlainText text) (hne : text ≠ [])
    (htail : w.unfinishedTail = [])
    (hact : ∀ l, llOpt = some l → w.lineShorteningActive = false ∧
        l ≤ (ctx.positionInBlock : Int))
    (hbound : ctx.positionInBlock + text.length ≤ 1024) :
    writeText w ctx llOpt text fmt =
      .ok ({ currentFormat := some (w.currentFormat.getD fmt), unfinishedTail := [],
             lineShorteningActive := false }, ctxInsert ctx text,
           llOpt.getD (ctx.positionInBlock : Int)) := by
  have hnot1024 : ¬ ((ctx.positionInBlock : Int) + (text.length : Int) > 1024) := by
    have : (ctx.positionInBlock : Int) + (text.length : Int) ≤ 1024 := by
      exact_mod_cast hbound
    omega
  cases llOpt with
  | none =>
    unfold writeText
    simp only [Option.getD_none, Option.isNone_none, if_true, lt_irrefl, if_false, htail,
      List.head?_nil, reduceCtorEq, false_and]
    rw [splitShell_plain text hplain hne]
    simp only [List.length_cons, List.length_nil]
    rw [procTokens_plain_single fmt text _ hplain hne]
    simp only [List.nil_append, sub_self, gt_iff_lt, lt_irrefl, if_false,
      writeTextFinish, shortenLines]
    rw [shortenGo_single_line_inactive _ _ _ _ _ hnot1024]
    rfl
  | some l =>
    obtain ⟨hact0, hle⟩ := hact l rfl
    unfold writeText
    simp only [Option.getD_some, Option.isNone_some, if_false, htail, List.head?_nil,
      reduceCtorEq, hact0, false_and]
    rw [if_neg (not_lt.mpr hle)]
    rw [splitShell_plain text hplain hne]
    simp only [List.length_cons, List.length_nil]
    rw [procTokens_plain_single fmt text _ hplain hne]
    simp only [List.nil_append, sub_self, gt_iff_lt, lt_irrefl, if_false,
      writeTextFinish, shortenLines]
    rw [shortenGo_single_line_inactive _ _ _ _ _ hnot1024]
    rfl

theorem PlainText_append {f g : List Char} (hf : PlainText f) (hg : PlainText g) :
    PlainText (f ++ g) := by
  intro c hc
  rcases List.mem_append.mp hc with h | h
  · exact hf c h
  · exact hg c h

theorem PlainText_flatten {L : List (List Char)} (h : ∀ f ∈ L, PlainText f) :
    PlainText L.flatten := by
  intro c hc
  obtain ⟨f, hf, hcf⟩ := List.mem_flatten.mp hc
  exact h f hf c hcf

/-- Claim C2 (amended): for fragments of plain printable text — no control
characters, no escapes — written through the same stream's writer with no
pending tail, line shortening off, and the accumulated end column within the
1024-column activation threshold, feeding the fragments one at a time
(threading writer state and recorded left limit exactly as consecutive
same-stream `write(..., prompt=0)` calls do) produces the same writer state,
the same document and cursors, and the same returned left limit as feeding
the concatenation in a single call.  (In general the round-trip fails: see
the counterexample, where a pending escape tail is reinterpreted while line
shortening is active.) -/
theorem claim2_roundtrip_amended :
    ∀ (frags : List (List Char)) (w : ShellWriterState) (ctx : WriteCtx) (l : Int)
      (fmt : TextFormat),
      frags ≠ [] →
      (∀ f ∈ frags, PlainText f ∧ f ≠ []) →
      w.unfinishedTail = [] →
      w.lineShorteningActive = false →
      ctx.wpos ≤ ctx.doc.length →
      l ≤ (ctx.positionInBlock : Int) →
      ctx.positionInBlock + frags.flatten.length ≤ 1024 →
      writeFragments w ctx l fmt frags = writeText w ctx (some l) frags.flatten fmt := by
  intro frags
  induction frags with
  | nil => intro w ctx l fmt hne; exact absurd rfl hne
  | cons f rest ih =>
    intro w ctx l fmt _ hall htail hact hwf hle hbound
    have hf : PlainText f ∧ f ≠ [] := hall f (by simp)
    have hfbound : ctx.positionInBlock + f.length ≤ 1024 := by
      have : f.length ≤ (f :: rest).flatten.length := by
        simp [List.flatten_cons]
      omega
    have h1 := writeText_plain w ctx (some l) f fmt hf.1 hf.2 htail
      (fun l' hl' => by
        injection hl' with he
        exact ⟨hact, he ▸ hle⟩) hfbound
    have hstep : writeFragments w ctx l fmt (f :: rest) =
        writeFragments (⟨some (w.currentFormat.getD fmt), [], false⟩ : ShellWriterState)
          (ctxInsert ctx f) l fmt rest := by
      simp only [writeFragments, h1, Option.getD_some]
    rw [hstep]
    cases rest with
    | nil =>
      simp only [writeFragments, List.flatten_cons, List.flatten_nil, List.append_nil]
      rw [h1]
      rfl
    | cons r rest2 =>
      have hplainrest : ∀ g ∈ r :: rest2, PlainText g ∧ g ≠ [] :=
        fun g hg => hall g (by simp [hg])
      have hpibIns : (ctxInsert ctx f).positionInBlock =
          ctx.positionInBlock + f.length :=
        positionInBlock_ctxInsert ctx f hwf
          (fun c hc => charCat_zero_ne_newline (hf.1 c hc))
      have hihres := ih (⟨some (w.currentFormat.getD fmt), [], false⟩ : ShellWriterState)
        (ctxInsert ctx f) l fmt (by simp)
        hplainrest rfl rfl (ctxInsert_wf ctx f hwf)
        (by rw [hpibIns]; push_cast; omega)
        (by
          rw [hpibIns]
          have : (f :: r :: rest2).flatten.length =
              f.length + (r :: rest2).flatten.length := by
            simp [List.flatten_cons]
          omega)
      rw [hihres]
      have hrfplain : PlainText (r :: rest2).flatten :=
        PlainText_flatten (fun g hg => (hplainrest g hg).1)
      have hrfne : (r :: rest2).flatten ≠ [] := by
        simp only [List.flatten_cons]
        intro hnil
        exact (hplainrest r (by simp)).2 (List.append_eq_nil.mp hnil).1
      have h2 := writeText_plain (⟨some (w.currentFormat.getD fmt), [], false⟩ : ShellWriterState)
        (ctxInsert ctx f) (some l) (r :: rest2).flatten fmt hrfplain hrfne rfl
        (fun l' hl' => by
          injection hl' with he
          refine ⟨rfl, ?_⟩
          rw [hpibIns]
          push_cast
          omega) (by
          rw [hpibIns]
          have : (f :: r :: rest2).flatten.length =
              f.length + (r :: rest2).flatten.length := by
            simp [List.flatten_cons]
          omega)
      rw [h2]
      have h3 := writeText_plain w ctx (some l) (f :: r :: rest2).flatten fmt
        (PlainText_flatten (fun g hg => (hall g hg).1))
        (by
          simp only [List.flatten_cons]
          intro hnil
          exact hf.2 (List.append_eq_nil.mp hnil).1)
        htail
        (fun l' hl' => by
          injection hl' with he
          exact ⟨hact, he ▸ hle⟩) hbound
      rw [h3]
      rw [ctxInsert_ctxInsert ctx f (r :: rest2).flatten hwf]
      simp [List.flatten_cons]

/-! ### The collapsed-prompt invariant (claim C8) -/

/-- The prompt is collapsed at the write head: the first tracked cursor (the
prompt end, with `keepPositionOnInsert` off during the write) coincides with
the working cursor, the cursor is inside the document, and `sfx` is the
document suffix after the prompt. -/
def Collapsed (ctx : WriteCtx) (sfx : List Char) : Prop :=
  (∃ rest, ctx.others = (ctx.wpos, false) :: rest) ∧
    ctx.wpos ≤ ctx.doc.length ∧ ctx.doc.drop ctx.wpos = sfx

theorem drop_len_append0 {α : Type} (l1 l2 : List α) (n : Nat) (h : l1.length = n) :
    (l1 ++ l2).drop n = l2 := by
  subst h
  exact List.drop_left l1 l2

theorem adjIns_le (q n p : Nat) (h : q ≤ p) : adjIns q n p false = p + n := by
  unfold adjIns
  rcases lt_or_eq_of_le h with h1 | h1
  · rw [if_pos h1]
  · rw [if_neg (by omega), if_pos ⟨h1, rfl⟩]

theorem drop_insertAt_of_le (doc : List Char) (q : Nat) (s : List Char) (p : Nat)
    (hq : q ≤ p) (hp : p ≤ doc.length) :
    (insertAt doc q s).drop (p + s.length) = doc.drop p := by
  unfold insertAt
  rw [List.append_assoc]
  have h1 : p + s.length = q + (s.length + (p - q)) := by omega
  rw [h1, drop_len_append (doc.take q) _ (s.length + (p - q)) q (by simp; omega),
    drop_len_append s _ (p - q) s.length rfl, List.drop_drop]
  congr 1
  omega

theorem collapsed_ctxInsert {ctx : WriteCtx} {sfx : List Char} (s : List Char)
    (h : Collapsed ctx sfx) : Collapsed (ctxInsert ctx s) sfx := by
  obtain ⟨⟨rest, hrest⟩, hwf, hdrop⟩ := h
  refine ⟨⟨rest.map (fun pk => (adjIns ctx.wpos s.length pk.1 pk.2, pk.2)), ?_⟩,
    ctxInsert_wf ctx s hwf, ?_⟩
  · simp only [ctxInsert, hrest, List.map_cons, adjIns_le _ _ _ (le_refl _)]
  · simp only [ctxInsert]
    rw [drop_insertAt_of_le ctx.doc ctx.wpos s ctx.wpos (le_refl _) hwf]
    exact hdrop

theorem collapsed_ctxDeleteBefore {ctx : WriteCtx} {sfx : List Char} (n : Nat)
    (h : Collapsed ctx sfx) : Collapsed (ctxDeleteBefore ctx n) sfx := by
  obtain ⟨⟨rest, hrest⟩, hwf, hdrop⟩ := h
  have hlen : (ctx.doc.take (ctx.wpos - n)).length = ctx.wpos - n := by
    simp
    omega
  refine ⟨⟨rest.map (fun pk => (adjDel (ctx.wpos - n) ctx.wpos pk.1, pk.2)), ?_⟩, ?_, ?_⟩
  · simp only [ctxDeleteBefore, hrest, List.map_cons]
    have : adjDel (ctx.wpos - n) ctx.wpos ctx.wpos = ctx.wpos - n := by
      unfold adjDel
      rw [if_pos (le_refl _)]
      omega
    rw [this]
  · simp only [ctxDeleteBefore, deleteRange, List.length_append, List.length_drop]
    omega
  · simp only [ctxDeleteBefore, deleteRange]
    rw [drop_len_append0 (ctx.doc.take (ctx.wpos - n)) _ _ hlen]
    exact hdrop

theorem retroStep_spec : ∀ (k : Nat) (c : WriteCtx) (p : Nat) (rest : List (Nat × Bool))
    (sfx : List Char),
    c.others = (p, false) :: rest → p ≤ c.doc.length → c.doc.drop p = sfx →
    c.wpos + 80 * k ≤ p →
    (retroStep k c).wpos = c.wpos + 80 * k + k ∧
    (∃ rest2, (retroStep k c).others = (p + k, false) :: rest2) ∧
    p + k ≤ (retroStep k c).doc.length ∧
    (retroStep k c).doc.drop (p + k) = sfx ∧
    (retroStep k c).doc.length = c.doc.length + k := by
  intro k
  induction k with
  | zero =>
    intro c p rest sfx hoth hple hdrop _
    simp only [retroStep]
    exact ⟨by omega, ⟨rest, by simpa using hoth⟩, by omega, by simpa using hdrop,
      by omega⟩
  | succ k ih =>
    intro c p rest sfx hoth hple hdrop hdist
    have hqle : c.wpos + 80 ≤ p := by omega
    have hmv : (ctxMoveRight c 80).wpos = c.wpos + 80 := by
      simp only [ctxMoveRight]
      omega
    have hc1oth : (ctxInsert (ctxMoveRight c 80) ['\n']).others =
        (p + 1, false) :: rest.map
          (fun pk => (adjIns (ctxMoveRight c 80).wpos 1 pk.1 pk.2, pk.2)) := by
      simp only [ctxInsert, ctxMoveRight, hoth, List.map_cons, List.length_cons,
        List.length_nil]
      congr 2
      have : min (c.wpos + 80) c.doc.length ≤ p := by omega
      rw [adjIns_le _ _ _ this]
    have hc1doc : (ctxInsert (ctxMoveRight c 80) ['\n']).doc.drop (p + 1) = sfx := by
      simp only [ctxInsert, ctxMoveRight, List.length_cons, List.length_nil]
      have hq : min (c.wpos + 80) c.doc.length ≤ p := by omega
      have := drop_insertAt_of_le c.doc (min (c.wpos + 80) c.doc.length) ['\n'] p hq hple
      simp only [List.length_cons, List.length_nil] at this
      rw [this]
      exact hdrop
    have hc1len : (ctxInsert (ctxMoveRight c 80) ['\n']).doc.length = c.doc.length + 1 := by
      simp [ctxInsert, insertAt, ctxMoveRight]
      omega
    have hc1wpos : (ctxInsert (ctxMoveRight c 80) ['\n']).wpos = c.wpos + 81 := by
      simp only [ctxInsert, ctxMoveRight, List.length_cons, List.length_nil]
      omega
    have hstep := ih (ctxInsert (ctxMoveRight c 80) ['\n']) (p + 1) _ sfx hc1oth
      (by omega) hc1doc (by rw [hc1wpos]; omega)
    simp only [retroStep]
    obtain ⟨hw, ⟨rest2, hoth2⟩, hple2, hdrop2, hlen2⟩ := hstep
    refine ⟨by rw [hw, hc1wpos]; ring,
      ⟨rest2, by rw [show p + (k + 1) = p + 1 + k by omega]; exact hoth2⟩,
      by rw [show p + (k + 1) = p + 1 + k by omega]; exact hple2,
      by rw [show p + (k + 1) = p + 1 + k by omega]; exact hdrop2,
      by rw [hlen2, hc1len]; omega⟩

theorem collapsed_retroSplit {ctx : WriteCtx} {sfx : List Char} (pib : Nat)
    (h : Collapsed ctx sfx) (hpib : pib ≤ ctx.wpos) :
    Collapsed (retroSplit ctx pib).1 sfx ∧
      (retroSplit ctx pib).1.wpos = ctx.wpos + pib / 80 := by
  obtain ⟨⟨rest, hrest⟩, hwf, hdrop⟩ := h
  have hml : (ctxMoveLeft ctx pib).wpos = ctx.wpos - pib := rfl
  have hstep := retroStep_spec (pib / 80) (ctxMoveLeft ctx pib) ctx.wpos rest sfx
    (by simpa [ctxMoveLeft] using hrest) (by simpa [ctxMoveLeft] using hwf)
    (by simpa [ctxMoveLeft] using hdrop)
    (by
      rw [hml]
      have := Nat.div_mul_le_self pib 80
      omega)
  obtain ⟨hw, ⟨rest2, hoth2⟩, hple2, hdrop2, hlen2⟩ := hstep
  have hdm := Nat.div_add_mod pib 80
  have hwfin : (retroSplit ctx pib).1.wpos = ctx.wpos + pib / 80 := by
    show (ctxMoveRight (retroStep (pib / 80) (ctxMoveLeft ctx pib)) (pib % 80)).wpos = _
    simp only [ctxMoveRight]
    rw [hw, hml, hlen2]
    simp only [ctxMoveLeft]
    omega
  refine ⟨⟨⟨rest2, ?_⟩, ?_, ?_⟩, hwfin⟩
  · show (retroStep (pib / 80) (ctxMoveLeft ctx pib)).others = _
    rw [hoth2, hwfin]
  · rw [hwfin]
    exact hple2
  · show (retroStep (pib / 80) (ctxMoveLeft ctx pib)).doc.drop
        ((retroSplit ctx pib).1.wpos) = sfx
    rw [hwfin]
    exact hdrop2

theorem positionInBlock_le (ctx : WriteCtx) : ctx.positionInBlock ≤ ctx.wpos := by
  unfold WriteCtx.positionInBlock pibAt
  have h1 : ((ctx.doc.take ctx.wpos).reverse.takeWhile (fun c => c ≠ '\n')).length ≤
      (ctx.doc.take ctx.wpos).reverse.length :=
    List.Sublist.length_le (List.takeWhile_sublist _)
  have h2 : (ctx.doc.take ctx.wpos).reverse.length ≤ ctx.wpos := by simp
  omega

theorem collapsed_shortenGo (entries : List FLEntry) :
    ∀ (isFirst : Bool) (pib : Nat) (a : Bool) (ctx : WriteCtx) (sfx : List Char)
      (res : List FLEntry × WriteCtx × Bool),
      pib ≤ ctx.wpos → Collapsed ctx sfx →
      shortenGo () entries isFirst pib a ctx = .ok res → Collapsed res.2.1 sfx := by
  induction entries with
  | nil =>
    intro isFirst pib a ctx sfx res _ hcol hgo
    simp only [shortenGo, Except.ok.injEq] at hgo
    subst hgo
    exact hcol
  | cons e rest ih =>
    intro isFirst pib a ctx sfx res hpib hcol hgo
    cases e with
    | rawStr s => simp [shortenGo] at hgo
    | rawInt n => simp [shortenGo] at hgo
    | line elems endPos =>
      simp only [shortenGo] at hgo
      set active1 := if endPos > 1024 then true
        else if endPos ≤ 81 ∧ rest ≠ [] then false else a with hactive1
      by_cases hb : active1 = true
      · rw [if_pos hb] at hgo
        by_cases hfirst : isFirst = true
        · rw [hfirst] at hgo
          simp only [if_true] at hgo
          by_cases hbig : pib > 80
          · rw [if_pos hbig] at hgo
            obtain ⟨hcol2, hwp2⟩ := collapsed_retroSplit pib hcol hpib
            cases hrec : shortenGo () rest false pib active1 (retroSplit ctx pib).1 with
            | error e2 => rw [hrec] at hgo; exact absurd hgo (by simp)
            | ok r2 =>
              rw [hrec] at hgo
              obtain ⟨o2, c2, a2⟩ := r2
              simp only [Except.ok.injEq] at hgo
              subst hgo
              exact ih false pib active1 _ sfx (o2, c2, a2)
                (by rw [hwp2]; omega) hcol2 hrec
          · rw [if_neg hbig] at hgo
            cases hrec : shortenGo () rest false pib active1 ctx with
            | error e2 => rw [hrec] at hgo; exact absurd hgo (by simp)
            | ok r2 =>
              rw [hrec] at hgo
              obtain ⟨o2, c2, a2⟩ := r2
              simp only [Except.ok.injEq] at hgo
              subst hgo
              exact ih false pib active1 ctx sfx (o2, c2, a2) hpib hcol hrec
        · have : isFirst = false := by
            cases isFirst
            · rfl
            · exact absurd rfl hfirst
          rw [this] at hgo
          simp only [if_false, Bool.false_eq_true] at hgo
          cases hrec : shortenGo () rest false pib active1 ctx with
          | error e2 => rw [hrec] at hgo; exact absurd hgo (by simp)
          | ok r2 =>
            rw [hrec] at hgo
            obtain ⟨o2, c2, a2⟩ := r2
            simp only [Except.ok.injEq] at hgo
            subst hgo
            exact ih false pib active1 ctx sfx (o2, c2, a2) hpib hcol hrec
      · rw [if_neg hb] at hgo
        cases hrec : shortenGo () rest false pib active1 ctx with
        | error e2 => rw [hrec] at hgo; exact absurd hgo (by simp)
        | ok r2 =>
          rw [hrec] at hgo
          obtain ⟨o2, c2, a2⟩ := r2
          simp only [Except.ok.injEq] at hgo
          subst hgo
          exact ih false pib active1 ctx sfx (o2, c2, a2) hpib hcol hrec

theorem collapsed_foldInsert (elems : List FLElem) :
    ∀ (ctx : WriteCtx) (sfx : List Char), Collapsed ctx sfx →
      Collapsed (elems.foldl (fun c2 el => match el with
        | FLElem.str s => ctxInsert c2 s
        | FLElem.fmt _ => c2) ctx) sfx := by
  induction elems with
  | nil => intro ctx sfx h; simpa using h
  | cons el rest ih =>
    intro ctx sfx h
    rw [List.foldl_cons]
    cases el with
    | str s => exact ih _ sfx (collapsed_ctxInsert s h)
    | fmt f => exact ih _ sfx h

theorem collapsed_insertLines (entries : List FLEntry) :
    ∀ (ctx : WriteCtx) (sfx : List Char), Collapsed ctx sfx →
      Collapsed (insertLines entries ctx) sfx := by
  induction entries with
  | nil => intro ctx sfx h; simpa [insertLines] using h
  | cons e rest ih =>
    intro ctx sfx h
    simp only [insertLines, List.foldl_cons]
    cases e with
    | line elems p => exact ih _ sfx (collapsed_foldInsert elems ctx sfx h)
    | rawStr s => exact ih _ sfx h
    | rawInt n => exact ih _ sfx h

theorem collapsed_ite_delete (ctx : WriteCtx) (sfx : List Char) (c : Prop)
    [Decidable c] (n : Nat) (h : Collapsed ctx sfx) :
    Collapsed (if c then ctxDeleteBefore ctx n else ctx) sfx := by
  split
  · exact collapsed_ctxDeleteBefore n h
  · exact h

theorem collapsed_writeTextFinish (finished : List FLEntry) (ctx1 : WriteCtx)
    (act : Bool) (cf : TextFormat) (tailNew : List Char) (ll : Int)
    (res : ShellWriterState × WriteCtx × Int) (sfx : List Char)
    (hcol1 : Collapsed ctx1 sfx)
    (hok : writeTextFinish finished ctx1 act cf tailNew ll = .ok res) :
    Collapsed res.2.1 sfx := by
  unfold writeTextFinish at hok
  cases hsh : shortenLines finished ctx1 act with
  | error e2 =>
    rw [hsh] at hok
    exact absurd hok (by simp)
  | ok r2 =>
    rw [hsh] at hok
    obtain ⟨f2, c2, a2⟩ := r2
    simp only [Except.ok.injEq] at hok
    have hcol2 : Collapsed c2 sfx := by
      unfold shortenLines at hsh
      exact collapsed_shortenGo _ true ctx1.positionInBlock _ ctx1 sfx (f2, c2, a2)
        (positionInBlock_le ctx1) hcol1 hsh
    rw [← hok]
    exact collapsed_insertLines f2 c2 sfx hcol2

/-- `writeText` preserves the collapsed-prompt invariant: the prompt-end
cursor ends exactly at the write head and the document suffix after it is
untouched, whatever the text contains. -/
theorem collapsed_writeText (w : ShellWriterState) (ctx : WriteCtx) (llOpt : Option Int)
    (text : List Char) (fmt : TextFormat) (sfx : List Char)
    (res : ShellWriterState × WriteCtx × Int)
    (hcol : Collapsed ctx sfx) (hok : writeText w ctx llOpt text fmt = .ok res) :
    Collapsed res.2.1 sfx := by
  unfold writeText at hok
  by_cases hassert : ((ctx.positionInBlock : Int) < llOpt.getD (ctx.positionInBlock : Int))
  · rw [if_pos hassert] at hok
    exact absurd hok (by simp)
  · rw [if_neg hassert] at hok
    refine collapsed_writeTextFinish _ _ _ _ _ _ res sfx ?_ hok
    exact collapsed_ite_delete ctx sfx _ _ hcol

/-- Claim C8: after a command echo `write(cmd, prompt=1)` of a plain command,
the last-command-start position equals the old prompt end, and prompt start
and prompt end both equal the position immediately after the inserted text
(the prompt collapses); and every subsequent `write(out, prompt=0)` — with any
`out` whatsoever — leaves the prompt collapsed (prompt start still equals
prompt end) and inserts strictly before it: the document suffix from the
prompt position on is unchanged. -/
theorem claim8_prompt_collapse :
    (∀ (st : ShellState) (cmd : List Char) (color : Option (List Char)) (sid : Nat),
        PlainText cmd → cmd ≠ [] → st.pos2 ≤ st.doc.length →
        pibAt st.doc st.pos2 + cmd.length ≤ 1024 →
        write st (.txt cmd) 1 color sid =
          .ok { doc := insertAt st.doc st.pos2 cmd,
                pos1 := st.pos2 + cmd.length,
                pos2 := st.pos2 + cmd.length,
                lastCmd := st.pos2,
                writers := st.writers,
                lastStreamStart := none }) ∧
    (∀ (st : ShellState) (out : List Char) (color : Option (List Char)) (sid : Nat)
        (st2 : ShellState),
        st.pos1 = st.pos2 → st.pos2 ≤ st.doc.length →
        write st (.txt out) 0 color sid = .ok st2 →
        st2.pos1 = st2.pos2 ∧ st2.doc.drop st2.pos2 = st.doc.drop st.pos2) := by
  constructor
  · intro st cmd color sid hplain hne hle hbound
    obtain ⟨c, cs, rfl⟩ : ∃ c cs, cmd = c :: cs := by
      cases cmd with
      | nil => exact absurd rfl hne
      | cons c cs => exact ⟨c, cs, rfl⟩
    have hwt := writeText_plain ShellWriterState.new
      ⟨st.doc, st.pos2, [(st.pos1, false), (st.pos2, true)]⟩ none (c :: cs)
      { foreground := color } hplain hne rfl (fun l hl => by cases hl) hbound
    have hunf : write st (.txt (c :: cs)) 1 color sid =
        (writeText ShellWriterState.new
            ⟨st.doc, st.pos2, [(st.pos1, false), (st.pos2, true)]⟩ none (c :: cs)
            { foreground := color }).map (writePrompt1Finish st) := rfl
    rw [hunf, hwt]
    simp only [Except.map, writePrompt1Finish, ctxInsert, Option.getD_none, List.map_cons,
      List.map_nil, List.getD_cons_succ, List.getD_cons_zero]
    have hadj : adjIns st.pos2 (c :: cs).length st.pos2 true = st.pos2 := by
      unfold adjIns
      rw [if_neg (by omega), if_neg (by simp)]
    rw [hadj]
  · intro st out color sid st2 heq hle hok
    cases out with
    | nil =>
      have hnil : Except.ok st = Except.ok st2 := hok
      cases hnil
      exact ⟨heq, rfl⟩
    | cons c cs =>
      have hok2 : (writeText ((lookupWriter st.writers sid).getD ShellWriterState.new)
            ⟨st.doc, st.pos1, [(st.pos2, false), (st.lastCmd, true)]⟩
            (match st.lastStreamStart with
             | some sl => if sl.1 = sid then some sl.2 else none
             | none => none) (c :: cs) { foreground := color }).map
          (writePrompt0Finish st sid) = .ok st2 := hok
      cases hwt : writeText ((lookupWriter st.writers sid).getD ShellWriterState.new)
          ⟨st.doc, st.pos1, [(st.pos2, false), (st.lastCmd, true)]⟩
          (match st.lastStreamStart with
           | some sl => if sl.1 = sid then some sl.2 else none
           | none => none) (c :: cs) { foreground := color } with
      | error e =>
        rw [hwt] at hok2
        exact absurd hok2 (by simp [Except.map])
      | ok r =>
        rw [hwt] at hok2
        obtain ⟨w2, ctx2, nl⟩ := r
        simp only [Except.map, Except.ok.injEq, writePrompt0Finish] at hok2
        have hcol0 : Collapsed ⟨st.doc, st.pos1, [(st.pos2, false), (st.lastCmd, true)]⟩
            (st.doc.drop st.pos2) := by
          refine ⟨⟨[(st.lastCmd, true)], ?_⟩, ?_, ?_⟩
          · show [(st.pos2, false), (st.lastCmd, true)] = (st.pos1, false) :: _
            rw [heq]
          · show st.pos1 ≤ st.doc.length
            omega
          · show st.doc.drop st.pos1 = st.doc.drop st.pos2
            rw [heq]
        have hc2 := collapsed_writeText _ _ _ _ _ (st.doc.drop st.pos2) (w2, ctx2, nl)
          hcol0 hwt
        obtain ⟨⟨rest2, hoth2⟩, hwf2, hdrop2⟩ := hc2
        rw [← hok2]
        constructor
        · show ctx2.wpos = (ctx2.others.getD 0 (0, false)).1
          rw [hoth2]
          rfl
        · show ctx2.doc.drop (ctx2.others.getD 0 (0, false)).1 = st.doc.drop st.pos2
          rw [hoth2]
          exact hdrop2

/-- Witness for claim C8: echoing `"ok"` on a fresh shell collapses the
prompt after the echoed text, and a subsequent before-prompt write of text
containing a newline keeps the prompt collapsed with the suffix unchanged. -/
theorem claim8_prompt_collapse_witness :
    write ShellState.fresh (.txt ['o', 'k']) 1 none 0 =
      .ok (⟨['o', 'k'], 2, 2, 0, [], none⟩ : ShellState) ∧
    (∀ st2 : ShellState,
        write (⟨['o', 'k'], 2, 2, 0, [], none⟩ : ShellState)
            (.txt ['a', '\n', 'b']) 0 none 3 = .ok st2 →
        st2.pos1 = st2.pos2 ∧ st2.doc.drop st2.pos2 = []) := by
  constructor
  · exact claim8_prompt_collapse.1 ShellState.fresh ['o', 'k'] none 0 (by decide)
      (by decide) (by decide) (by decide)
  · intro st2 h
    have hres := claim8_prompt_collapse.2 (⟨['o', 'k'], 2, 2, 0, [], none⟩ : ShellState)
      ['a', '\n', 'b'] none 3 st2 rfl (by decide) h
    exact ⟨hres.1, hres.2⟩

/-- Witness for claim C2 (amended): feeding `"he"` then `"llo"` equals feeding
`"hello"` at once. -/
theorem claim2_roundtrip_amended_witness :
    writeFragments ShellWriterState.new ⟨[], 0, []⟩ 0 {} [['h', 'e'], ['l', 'l', 'o']] =
      writeText ShellWriterState.new ⟨[], 0, []⟩ (some 0) ['h', 'e', 'l', 'l', 'o'] {} := by
  exact claim2_roundtrip_amended [['h', 'e'], ['l', 'l', 'o']] ShellWriterState.new
    ⟨[], 0, []⟩ 0 {} (by decide) (by decide) rfl rfl (by decide) (by decide) (by decide)

/-- Witness for claim C10: the flag-independence equality at a concrete input,
and the observable divergence of the latched writer at its concrete result. -/
theorem claim10_none_resets_shortening_witness :
    (writeText { activeWriter with lineShorteningActive := true } ⟨['z'], 1, []⟩ none
        ['w'] {} =
      writeText { activeWriter with lineShorteningActive := false } ⟨['z'], 1, []⟩ none
        ['w'] {}) ∧
    ((⟨some {}, [], true⟩ : ShellWriterState),
        (⟨(List.replicate 80 'a' ++ ['\n']) ++ (List.replicate 20 'a' ++ ['b']), 102,
          []⟩ : WriteCtx), (0 : Int)).1.lineShorteningActive = true := by
  constructor
  · exact claim10_none_resets_shortening.1 activeWriter ⟨['z'], 1, []⟩ ['w'] {}
  · exact (claim10_none_resets_shortening.2.2
      ((⟨some {}, [], true⟩ : ShellWriterState),
        (⟨(List.replicate 80 'a' ++ ['\n']) ++ (List.replicate 20 'a' ++ ['b']), 102,
          []⟩ : WriteCtx), (0 : Int)) (by decide)).1

end PyzoShell
